import Mathlib

/-!
Verification of the orchestration core of the Buonghe multi-modal retrieval
service, shallowly embedded from the Python source.

Conventions of the embedding:
* Python `dict`s are association lists `List (String × α)` with Python's
  insertion semantics: assigning to an existing key replaces its value in
  place, assigning to a new key appends it at the end.
* Real-valued scores and timestamps are modelled as rationals `ℚ`; the
  claims under study concern comparisons and sums, not rounding.
* `sorted(..., key=f, reverse=True)` (Python's stable sort, descending) is
  modelled by the stable insertion sort `sortDescBy` below.
-/

namespace Buonghe

/-- Cluster mode enum (`models/base.py`, class `Mode`). -/
inductive Mode where
  | MOMENT
  | VIDEO
  | VIDEO_AVG
  | TEMPORAL
deriving DecidableEq

/-- Canonical record shape produced by `SearchService._format_milvus_result`
(`services/search_service.py` lines 164-177): score, url, keyframe path,
video id and frame id (both obtained in the source by splitting the
compound id `prefix/videoId/frameId` on `/`), and timestamp. -/
structure CanonicalRecord where
  score : ℚ
  url : String
  path : String
  videoId : String
  frameId : String
  timeInSeconds : ℚ
deriving DecidableEq

/-- A Python dict of canonical records keyed by compound id. -/
abbrev Dict : Type := List (String × CanonicalRecord)

/-- Python `d[k]` lookup: first binding of `k` (keys are unique in a Python dict). -/
def dictGet {α : Type} (d : List (String × α)) (k : String) : Option α :=
  (d.find? (fun p => p.1 == k)).map (fun p => p.2)

/-- Python `d[k] = v` assignment with Python dict semantics: replace in place when
the key exists, append otherwise. -/
def dictInsert {α : Type} (d : List (String × α)) (k : String) (v : α) :
    List (String × α) :=
  if d.any (fun p => p.1 == k) then
    d.map (fun p => if p.1 == k then (k, v) else p)
  else
    d ++ [(k, v)]

/-- Python `d.update(e)`: assign every binding of `e` into `d`, in `e`'s order. -/
def dictUpdate {α : Type} (d e : List (String × α)) : List (String × α) :=
  e.foldl (fun acc p => dictInsert acc p.1 p.2) d

/-- Insert `x` into `l` before the first element whose key is `≤ f x`.
Helper for the stable descending sort. -/
def insertDescBy {α : Type} (f : α → ℚ) (x : α) : List α → List α
  | [] => [x]
  | y :: ys => if f y ≤ f x then x :: y :: ys else y :: insertDescBy f x ys

/-- Stable sort by `f` descending, modelling Python's
`sorted(..., key=f, reverse=True)`: equal keys keep their input order. -/
def sortDescBy {α : Type} (f : α → ℚ) (l : List α) : List α :=
  l.foldr (insertDescBy f) []

theorem insertDescBy_perm {α : Type} (f : α → ℚ) (x : α) (l : List α) :
    List.Perm (insertDescBy f x l) (x :: l) := by
  induction l with
  | nil => simp [insertDescBy]
  | cons y ys ih =>
    by_cases h : f y ≤ f x
    · simp [insertDescBy, h]
    · simp only [insertDescBy, if_neg h]
      exact ((ih.cons y).trans (List.Perm.swap x y ys))

theorem sortDescBy_perm {α : Type} (f : α → ℚ) (l : List α) :
    List.Perm (sortDescBy f l) l := by
  induction l with
  | nil => simp [sortDescBy]
  | cons y ys ih =>
    have h1 : sortDescBy f (y :: ys) = insertDescBy f y (sortDescBy f ys) := rfl
    rw [h1]
    exact (insertDescBy_perm f y (sortDescBy f ys)).trans (ih.cons y)

theorem mem_insertDescBy {α : Type} {f : α → ℚ} {x a : α} {l : List α} :
    a ∈ insertDescBy f x l ↔ a = x ∨ a ∈ l := by
  constructor
  · intro h
    have := (insertDescBy_perm f x l).mem_iff.mp h
    simpa using this
  · intro h
    apply (insertDescBy_perm f x l).mem_iff.mpr
    simpa using h

theorem insertDescBy_pairwise {α : Type} {f : α → ℚ} (x : α) {l : List α}
    (h : l.Pairwise (fun a b => f b ≤ f a)) :
    (insertDescBy f x l).Pairwise (fun a b => f b ≤ f a) := by
  induction l with
  | nil => simp [insertDescBy]
  | cons y ys ih =>
    rcases List.pairwise_cons.mp h with ⟨hy, hys⟩
    by_cases hc : f y ≤ f x
    · simp only [insertDescBy, if_pos hc]
      refine List.pairwise_cons.mpr ⟨?_, h⟩
      intro b hb
      rcases List.mem_cons.mp hb with rfl | hb
      · exact hc
      · exact le_trans (hy b hb) hc
    · simp only [insertDescBy, if_neg hc]
      refine List.pairwise_cons.mpr ⟨?_, ih hys⟩
      intro b hb
      rcases mem_insertDescBy.mp hb with rfl | hb
      · exact le_of_lt (lt_of_not_le hc)
      · exact hy b hb

theorem sortDescBy_pairwise {α : Type} (f : α → ℚ) (l : List α) :
    (sortDescBy f l).Pairwise (fun a b => f b ≤ f a) := by
  induction l with
  | nil => simp [sortDescBy]
  | cons y ys ih => exact insertDescBy_pairwise y ih

theorem insertDescBy_filter {α : Type} (f : α → ℚ) (m : ℚ) (x : α)
    (l : List α) :
    (insertDescBy f x l).filter (fun a => decide (f a = m)) =
      if f x = m then x :: l.filter (fun a => decide (f a = m))
      else l.filter (fun a => decide (f a = m)) := by
  induction l with
  | nil =>
    by_cases h : f x = m <;> simp [insertDescBy, h]
  | cons y ys ih =>
    by_cases hc : f y ≤ f x
    · have e1 : insertDescBy f x (y :: ys) = x :: y :: ys := by
        simp [insertDescBy, hc]
      by_cases h : f x = m <;> simp [e1, List.filter_cons, h]
    · have e1 : insertDescBy f x (y :: ys) = y :: insertDescBy f x ys := by
        simp [insertDescBy, hc]
      have hyx : f x < f y := lt_of_not_le hc
      by_cases h : f x = m
      · have hy : ¬ f y = m := by
          intro hy; rw [hy, ← h] at hyx; exact lt_irrefl _ hyx
        simp [e1, List.filter_cons, ih, h, hy]
      · by_cases hy : f y = m <;> simp [e1, List.filter_cons, ih, h, hy]

/-- Stability of `sortDescBy`: the elements whose key equals any fixed value
appear in the sorted output exactly in their input order. -/
theorem sortDescBy_filter {α : Type} (f : α → ℚ) (m : ℚ) (l : List α) :
    (sortDescBy f l).filter (fun a => decide (f a = m)) =
      l.filter (fun a => decide (f a = m)) := by
  induction l with
  | nil => simp [sortDescBy]
  | cons y ys ih =>
    have h1 : sortDescBy f (y :: ys) = insertDescBy f y (sortDescBy f ys) := rfl
    rw [h1, insertDescBy_filter]
    by_cases h : f y = m <;> simp [List.filter, h, ih]

theorem insertDescBy_map {α β : Type} (f : β → ℚ) (g : α → β) (x : α)
    (l : List α) :
    insertDescBy f (g x) (l.map g) = (insertDescBy (fun a => f (g a)) x l).map g := by
  induction l with
  | nil => simp [insertDescBy]
  | cons y ys ih =>
    by_cases h : f (g y) ≤ f (g x) <;> simp [insertDescBy, h, ih]

/-- Sorting commutes with mapping when the key factors through the map. -/
theorem sortDescBy_map {α β : Type} (f : β → ℚ) (g : α → β) (l : List α) :
    sortDescBy f (l.map g) = (sortDescBy (fun a => f (g a)) l).map g := by
  induction l with
  | nil => simp [sortDescBy]
  | cons y ys ih =>
    have h1 : sortDescBy f ((y :: ys).map g)
        = insertDescBy f (g y) (sortDescBy f (ys.map g)) := rfl
    rw [h1, ih, insertDescBy_map]
    rfl

/-! ## FusionEngine (`helpers/fusion.py`, class `RRFFusion`)

The three score maps built by the source (`reciprocal_rank_fusion`,
`comb_mnz_fusion`, `calc_final_scores`) are accumulating dicts whose final
binding for a given id is a sum over the input sets; they are embedded here
by that per-id value.  `k` is the RRF constant, `alpha` the RRF/CombMNZ
blend weight. -/

/-- Contribution of one result set to an id's RRF score
(`reciprocal_rank_fusion`): `1/(k + rank + 1)` where `rank` is the 0-based
position of the id in the set's iteration order, and `0` when the set does
not contain the id. -/
def rrfContrib (k : ℕ) (d : Dict) (id : String) : ℚ :=
  match d.findIdx? (fun p => p.1 == id) with
  | some r => 1 / ((k : ℚ) + (r : ℚ) + 1)
  | none => 0

/-- RRF score of an id: final binding of `fused_scores` in
`reciprocal_rank_fusion`, i.e. the sum of per-set contributions. -/
def rrfScore (k : ℕ) (results : List Dict) (id : String) : ℚ :=
  (results.map (fun d => rrfContrib k d id)).sum

/-- The `sum_scores[id]` map of `comb_mnz_fusion`: sum of the id's scores over the
sets containing it (missing sets contribute 0). -/
def sumScores (results : List Dict) (id : String) : ℚ :=
  (results.map (fun d =>
    match dictGet d id with
    | some r => r.score
    | none => 0)).sum

/-- The `count_scores[id]` map of `comb_mnz_fusion`: number of sets containing the id. -/
def countScores (results : List Dict) (id : String) : ℕ :=
  (results.filter (fun d => (dictGet d id).isSome)).length

/-- CombMNZ score of an id (`comb_mnz_fusion`): sum of scores times the
count of sets containing it. -/
def combMNZScore (results : List Dict) (id : String) : ℚ :=
  sumScores results id * (countScores results id : ℚ)

/-- Source `calc_final_scores`: `alpha * rrf + (1 - alpha) * combMNZ`, over the
union of ids seen by either map (an id absent from one map contributes 0
there — here both per-id functions already return 0 on absent ids). -/
def calcFinalScore (k : ℕ) (alpha : ℚ) (results : List Dict) (id : String) : ℚ :=
  alpha * rrfScore k results id + (1 - alpha) * combMNZScore results id

/-- Source `merge_results`: `merged_results.update(result_dict)` over the input
sets in order — last write wins per id, key positions are first-encounter. -/
def mergeResults (results : List Dict) : Dict :=
  results.foldl dictUpdate []

/-- The ids of `all_doc_ids` in `calc_final_scores`: the union of the ids
of the RRF and CombMNZ maps, which is exactly the set of ids occurring in
some input set.  The source iterates it as a Python `set` (arbitrary
order); only score assignments are driven by it, so the order is
unobservable and a canonical encounter order is used here. -/
def allDocIds (results : List Dict) : List String :=
  ((results.map (fun d => d.map Prod.fst)).flatten).dedup

/-- The assignment `merged_results[doc_id]["score"] = score`. -/
def setScore (r : CanonicalRecord) (s : ℚ) : CanonicalRecord :=
  { r with score := s }

/-- The score-overwriting loop of `fuse` (lines 151-153): each merged
record whose id has a final score gets that score written in place. -/
def overwriteScores (merged : Dict) (ids : List String) (final : String → ℚ) :
    Dict :=
  merged.map (fun p => if p.1 ∈ ids then (p.1, setScore p.2 (final p.1)) else p)

/-- Source `RRFFusion.fuse`: empty input yields the empty dict; otherwise merge
all sets (last-write-wins), overwrite each merged record's score with its
final fusion score, and sort by score descending (Python `sorted` with
`reverse=True`, stable). -/
def fuse (k : ℕ) (alpha : ℚ) (results : List Dict) : Dict :=
  if results.isEmpty then []
  else
    sortDescBy (fun p => p.2.score)
      (overwriteScores (mergeResults results) (allDocIds results)
        (calcFinalScore k alpha results))

theorem mem_dictInsert {α : Type} {d : List (String × α)} {k : String}
    {v : α} {q : String × α} (h : q ∈ dictInsert d k v) :
    q = (k, v) ∨ q ∈ d := by
  unfold dictInsert at h
  by_cases hc : d.any (fun p => p.1 == k)
  · rw [if_pos hc] at h
    rcases List.mem_map.mp h with ⟨p, hp, he⟩
    by_cases hk : p.1 == k
    · left; rw [if_pos hk] at he; exact he.symm
    · right; rw [if_neg hk] at he; rw [← he]; exact hp
  · rw [if_neg hc] at h
    rcases List.mem_append.mp h with h | h
    · right; exact h
    · left; simpa using h

theorem mem_dictUpdate {α : Type} {d e : List (String × α)} {q : String × α}
    (h : q ∈ dictUpdate d e) : q ∈ d ∨ q ∈ e := by
  induction e generalizing d with
  | nil => left; exact h
  | cons p rest ih =>
    have h1 : dictUpdate d (p :: rest) = dictUpdate (dictInsert d p.1 p.2) rest := rfl
    rw [h1] at h
    rcases ih h with h | h
    · rcases mem_dictInsert h with h | h
      · right; simp [h]
      · left; exact h
    · right; right; exact h

theorem mem_mergeResults {results : List Dict} {q : String × CanonicalRecord}
    (h : q ∈ mergeResults results) : ∃ d ∈ results, q ∈ d := by
  unfold mergeResults at h
  suffices H : ∀ (acc : Dict), q ∈ results.foldl dictUpdate acc →
      q ∈ acc ∨ ∃ d ∈ results, q ∈ d by
    rcases H [] h with h | h
    · simp at h
    · exact h
  intro acc
  clear h
  induction results generalizing acc with
  | nil => intro h; left; exact h
  | cons d rest ih =>
    intro h
    rcases ih (dictUpdate acc d) h with h | h
    · rcases mem_dictUpdate h with h | h
      · left; exact h
      · right; exact ⟨d, by simp, h⟩
    · rcases h with ⟨d', hd', hq⟩
      right; exact ⟨d', by simp [hd'], hq⟩

theorem mem_allDocIds {results : List Dict} {q : String × CanonicalRecord}
    (h : q ∈ mergeResults results) : q.1 ∈ allDocIds results := by
  rcases mem_mergeResults h with ⟨d, hd, hq⟩
  unfold allDocIds
  rw [List.mem_dedup]
  rw [List.mem_flatten]
  exact ⟨d.map Prod.fst, List.mem_map.mpr ⟨d, hd, rfl⟩,
    List.mem_map.mpr ⟨q, hq, rfl⟩⟩

/-- On the merged dict, the overwrite loop is a plain per-record score map:
every merged id has a final score. -/
theorem overwriteScores_mergeResults (results : List Dict) (final : String → ℚ) :
    overwriteScores (mergeResults results) (allDocIds results) final =
      (mergeResults results).map (fun p => (p.1, setScore p.2 (final p.1))) := by
  unfold overwriteScores
  apply List.map_congr_left
  intro p hp
  rw [if_pos (mem_allDocIds hp)]

/-- Closed form of `fuse`: the merged set with every record's score
replaced by its final fusion score, stably sorted by score descending.
(The empty-input guard is invisible here: merging no sets is empty.) -/
theorem fuse_eq_sorted_map (k : ℕ) (alpha : ℚ) (results : List Dict) :
    fuse k alpha results =
      sortDescBy (fun p => p.2.score)
        ((mergeResults results).map
          (fun p => (p.1, setScore p.2 (calcFinalScore k alpha results p.1)))) := by
  cases results with
  | nil => rfl
  | cons d rest =>
    unfold fuse
    rw [if_neg (by simp), overwriteScores_mergeResults]

/-- C2: for every list of result sets, `fuse` returns the per-id
last-write-wins merge of the input sets in which each merged record's
score has been overwritten with
`final[id] = alpha * rrf[id] + (1 - alpha) * combMNZ[id]`
(`rrf` summing `1/(k + rank + 1)` over the sets containing the id, with
0-based ranks, and `combMNZ` being sum-of-scores times containing-set
count, absent ids contributing 0), and the returned mapping is ordered by
score descending; the empty input list yields the empty mapping. -/
theorem fuse_merges_blends_and_sorts (k : ℕ) (alpha : ℚ) (results : List Dict) :
    fuse k alpha results =
      sortDescBy (fun p => p.2.score)
        ((mergeResults results).map
          (fun p => (p.1, setScore p.2 (calcFinalScore k alpha results p.1))))
  ∧ List.Perm (fuse k alpha results)
      ((mergeResults results).map
        (fun p => (p.1, setScore p.2 (calcFinalScore k alpha results p.1))))
  ∧ (fuse k alpha results).Pairwise (fun p q => q.2.score ≤ p.2.score)
  ∧ fuse k alpha [] = [] := by
  refine ⟨fuse_eq_sorted_map k alpha results, ?_, ?_, rfl⟩
  · rw [fuse_eq_sorted_map]
    exact sortDescBy_perm _ _
  · rw [fuse_eq_sorted_map]
    exact sortDescBy_pairwise _ _

/-- The "pure RRF ranking" of the spec: the merged candidates ordered by
RRF score descending (same stable order on ties as `fuse`), ids only.
This definition follows the spec's words, for comparison with `fuse`. -/
def rrfRanking (k : ℕ) (results : List Dict) : List String :=
  (sortDescBy (fun p => p.2.score)
    ((mergeResults results).map
      (fun p => (p.1, setScore p.2 (rrfScore k results p.1))))).map Prod.fst

/-- The "pure CombMNZ ranking" of the spec: the merged candidates ordered
by CombMNZ score descending, ids only.  This definition follows the
spec's words, for comparison with `fuse`. -/
def combMNZRanking (results : List Dict) : List String :=
  (sortDescBy (fun p => p.2.score)
    ((mergeResults results).map
      (fun p => (p.1, setScore p.2 (combMNZScore results p.1))))).map Prod.fst

/-- C6: with `alpha = 1.0` the fused ranking equals the pure RRF ranking,
and with `alpha = 0.0` it equals the pure CombMNZ ranking. -/
theorem fuse_alpha_extremes (k : ℕ) (results : List Dict) :
    (fuse k 1 results).map Prod.fst = rrfRanking k results
  ∧ (fuse k 0 results).map Prod.fst = combMNZRanking results := by
  constructor
  · rw [fuse_eq_sorted_map]
    unfold rrfRanking
    have h : (mergeResults results).map
          (fun p => (p.1, setScore p.2 (calcFinalScore k 1 results p.1)))
        = (mergeResults results).map
          (fun p => (p.1, setScore p.2 (rrfScore k results p.1))) := by
      apply List.map_congr_left
      intro p _
      have : calcFinalScore k 1 results p.1 = rrfScore k results p.1 := by
        unfold calcFinalScore
        ring
      rw [this]
    rw [h]
  · rw [fuse_eq_sorted_map]
    unfold combMNZRanking
    have h : (mergeResults results).map
          (fun p => (p.1, setScore p.2 (calcFinalScore k 0 results p.1)))
        = (mergeResults results).map
          (fun p => (p.1, setScore p.2 (combMNZScore results p.1))) := by
      apply List.map_congr_left
      intro p _
      have : calcFinalScore k 0 results p.1 = combMNZScore results p.1 := by
        unfold calcFinalScore
        ring
      rw [this]
    rw [h]

/-! ## ClusterProjector (`services/search_service.py`,
`_create_moment_clusters` / `_create_video_clusters`) -/

/-- Display image (`models/base.py`, class `Image`). -/
structure Image where
  id : String
  path : String
  name : String
  timeInSeconds : ℚ
  score : ℚ
deriving DecidableEq

/-- Display cluster (`models/base.py`, class `Cluster`). -/
structure Cluster where
  mode : Mode
  clusterName : String
  imageList : List Image
  url : String
deriving DecidableEq

/-- The `Image(...)` constructed from a result entry in the cluster
builders: `id`, the record's `path`, `name = id`, time and score. -/
def mkImage (id : String) (m : CanonicalRecord) : Image :=
  ⟨id, m.path, id, m.timeInSeconds, m.score⟩

/-- One step of the `video_groups` accumulation in
`_create_video_clusters`: create the group for the record's `videoId` on
first encounter (capturing that record's url), then append the record's
image to its group. -/
def addToGroups (groups : List (String × (List Image × String)))
    (id : String) (m : CanonicalRecord) :
    List (String × (List Image × String)) :=
  let gs :=
    if groups.any (fun g => g.1 == m.videoId) then groups
    else groups ++ [(m.videoId, ([], m.url))]
  gs.map (fun g =>
    if g.1 == m.videoId then (g.1, (g.2.1 ++ [mkImage id m], g.2.2)) else g)

/-- The `video_groups` accumulation: per-videoId groups in first-encounter order, each
group's image list in within-group encounter order. -/
def videoGroups (d : Dict) : List (String × (List Image × String)) :=
  d.foldl (fun gs p => addToGroups gs p.1 p.2) []

/-- Arithmetic mean of a group's image scores (the `score` of
`video_scores` in `_create_video_clusters`). -/
def avgScore (imgs : List Image) : ℚ :=
  (imgs.map (fun i => i.score)).sum / (imgs.length : ℚ)

/-- Source `_create_video_clusters`: in VIDEO mode, one cluster per group in
first-encounter order; in any other (VIDEO_AVG) mode, the same groups
reordered by average score descending with Python's stable sort. -/
def createVideoClusters (d : Dict) (mode : Mode) : List Cluster :=
  if mode = Mode.VIDEO then
    (videoGroups d).map (fun g => ⟨mode, g.1, g.2.1, g.2.2⟩)
  else
    (sortDescBy (fun g => avgScore g.2.1) (videoGroups d)).map
      (fun g => ⟨mode, g.1, g.2.1, g.2.2⟩)

/-- Source `_create_moment_clusters`: one single-image cluster per record,
named by the record's videoId. -/
def createMomentClusters (d : Dict) : List Cluster :=
  d.map (fun p => ⟨Mode.MOMENT, p.2.videoId, [mkImage p.1 p.2], p.2.url⟩)

/-- The A/C/B literal of the claim: records A{V1, 0.9}, C{V2, 0.8},
B{V1, 0.7}, encountered in order A, C, B. -/
def clusterExample : Dict :=
  [("p/V1/1", ⟨9/10, "u1", "kf", "V1", "1", 1⟩),
   ("p/V2/1", ⟨4/5, "u2", "kf", "V2", "1", 1⟩),
   ("p/V1/2", ⟨7/10, "u1", "kf", "V1", "2", 2⟩)]

/-- C4: VIDEO_AVG groups records exactly as VIDEO does and reorders the
clusters by the arithmetic mean of their images' scores, descending,
keeping first-encounter order on equal means (stable sort); on the A/C/B
literal the cluster order is [V1 (avg 0.8), V2 (avg 0.8)]. -/
theorem video_avg_clustering (d : Dict) :
    (createVideoClusters d Mode.VIDEO_AVG).map
        (fun c => (c.clusterName, c.imageList, c.url))
      = sortDescBy (fun t => avgScore t.2.1)
          ((createVideoClusters d Mode.VIDEO).map
            (fun c => (c.clusterName, c.imageList, c.url)))
  ∧ (createVideoClusters d Mode.VIDEO_AVG).Pairwise
      (fun a b => avgScore b.imageList ≤ avgScore a.imageList)
  ∧ (∀ m : ℚ,
      ((createVideoClusters d Mode.VIDEO_AVG).map
          (fun c => (c.clusterName, c.imageList, c.url))).filter
        (fun t => decide (avgScore t.2.1 = m))
      = ((createVideoClusters d Mode.VIDEO).map
          (fun c => (c.clusterName, c.imageList, c.url))).filter
        (fun t => decide (avgScore t.2.1 = m)))
  ∧ (createVideoClusters clusterExample Mode.VIDEO_AVG).map
      (fun c => (c.clusterName, avgScore c.imageList))
      = [("V1", 4/5), ("V2", 4/5)] := by
  have hAVG : createVideoClusters d Mode.VIDEO_AVG
      = (sortDescBy (fun g => avgScore g.2.1) (videoGroups d)).map
          (fun g => ⟨Mode.VIDEO_AVG, g.1, g.2.1, g.2.2⟩) := by
    unfold createVideoClusters
    rw [if_neg (by decide)]
  have hVID : createVideoClusters d Mode.VIDEO
      = (videoGroups d).map (fun g => ⟨Mode.VIDEO, g.1, g.2.1, g.2.2⟩) := by
    unfold createVideoClusters
    rw [if_pos rfl]
  have h1 : (createVideoClusters d Mode.VIDEO_AVG).map
        (fun c => (c.clusterName, c.imageList, c.url))
      = sortDescBy (fun t => avgScore t.2.1)
          ((createVideoClusters d Mode.VIDEO).map
            (fun c => (c.clusterName, c.imageList, c.url))) := by
    rw [hAVG, hVID, List.map_map, List.map_map, sortDescBy_map]
    rfl
  refine ⟨h1, ?_, ?_, ?_⟩
  · rw [hAVG, List.pairwise_map]
    exact sortDescBy_pairwise _ _
  · intro m
    rw [h1, sortDescBy_filter]
  · simp +decide only [clusterExample, createVideoClusters, videoGroups,
      addToGroups, mkImage, sortDescBy, insertDescBy, avgScore, List.foldl,
      List.foldr, List.map, List.any, String.reduceEq, reduceIte]
    norm_num

/-! ## TemporalCorrelator
(`services/search_service.py`, `visual_temporal_search` lines 811-872)

The correlation loop walks the now-set in order; for each now record it
scans the before-set and the after-set keeping the first candidate whose
score strictly exceeds the running maximum, which starts at `0`.  The
eligibility tests compare the video id obtained by splitting the compound
id (here carried as the record's `videoId` field, which the formatter
derives from the same split) and the time window. -/

/-- Before-candidate window test (line 820): same video and
`0 ≤ now.time − cand.time ≤ timeInterval`. -/
def beforeEligible (interval : ℚ) (nowR c : CanonicalRecord) : Bool :=
  c.videoId == nowR.videoId
    && decide (0 ≤ nowR.timeInSeconds - c.timeInSeconds)
    && decide (nowR.timeInSeconds - c.timeInSeconds ≤ interval)

/-- After-candidate window test (line 831): same video and
`0 ≤ cand.time − now.time ≤ timeInterval`. -/
def afterEligible (interval : ℚ) (nowR c : CanonicalRecord) : Bool :=
  c.videoId == nowR.videoId
    && decide (0 ≤ c.timeInSeconds - nowR.timeInSeconds)
    && decide (c.timeInSeconds - nowR.timeInSeconds ≤ interval)

/-- The candidate scan (lines 815-835): running best candidate and running
maximum score, updated whenever an eligible candidate's score strictly
exceeds the running maximum. -/
def selectGo (elig : CanonicalRecord → Bool) :
    List (String × CanonicalRecord) → Option (String × CanonicalRecord) → ℚ →
      Option (String × CanonicalRecord)
  | [], best, _ => best
  | p :: rest, best, m =>
    if elig p.2 = true ∧ m < p.2.score then selectGo elig rest (some p) p.2.score
    else selectGo elig rest best m

/-- The selected before/after candidate: scan with `selected = None` and
`max_score = 0` initial trackers. -/
def selectCandidate (elig : CanonicalRecord → Bool)
    (cands : List (String × CanonicalRecord)) :
    Option (String × CanonicalRecord) :=
  selectGo elig cands none 0

/-- Restartable form of the scan: the best candidate found strictly above
threshold `m`, ignoring any prior best.  Equal to `selectGo` by
`selectGo_eq_pick`. -/
def pick (elig : CanonicalRecord → Bool) (m : ℚ) :
    List (String × CanonicalRecord) → Option (String × CanonicalRecord)
  | [] => none
  | p :: rest =>
    if elig p.2 = true ∧ m < p.2.score then some ((pick elig p.2.score rest).getD p)
    else pick elig m rest

theorem selectGo_eq_pick (elig : CanonicalRecord → Bool)
    (cands : List (String × CanonicalRecord))
    (best : Option (String × CanonicalRecord)) (m : ℚ) :
    selectGo elig cands best m = (pick elig m cands).elim best some := by
  induction cands generalizing best m with
  | nil => rfl
  | cons p rest ih =>
    by_cases hc : elig p.2 = true ∧ m < p.2.score
    · rw [show selectGo elig (p :: rest) best m
          = selectGo elig rest (some p) p.2.score by simp [selectGo, hc]]
      rw [show pick elig m (p :: rest)
          = some ((pick elig p.2.score rest).getD p) by simp [pick, hc]]
      rw [ih]
      cases pick elig p.2.score rest <;> rfl
    · rw [show selectGo elig (p :: rest) best m
          = selectGo elig rest best m by simp [selectGo, hc]]
      rw [show pick elig m (p :: rest) = pick elig m rest by simp [pick, hc]]
      exact ih best m

theorem pick_eq_none_iff (elig : CanonicalRecord → Bool) (m : ℚ)
    (cands : List (String × CanonicalRecord)) :
    pick elig m cands = none ↔
      ∀ p ∈ cands, elig p.2 = true → p.2.score ≤ m := by
  induction cands generalizing m with
  | nil => simp [pick]
  | cons p rest ih =>
    by_cases hc : elig p.2 = true ∧ m < p.2.score
    · rw [show pick elig m (p :: rest)
          = some ((pick elig p.2.score rest).getD p) by simp [pick, hc]]
      simp only [reduceCtorEq, false_iff]
      intro H
      exact absurd (H p (by simp) hc.1) (not_le.mpr hc.2)
    · rw [show pick elig m (p :: rest) = pick elig m rest by simp [pick, hc]]
      rw [ih]
      constructor
      · intro H q hq he
        rcases List.mem_cons.mp hq with rfl | hq
        · by_contra hlt
          exact hc ⟨he, lt_of_not_le hlt⟩
        · exact H q hq he
      · intro H q hq he
        exact H q (List.mem_cons_of_mem p hq) he

theorem pick_sound (elig : CanonicalRecord → Bool) (m : ℚ)
    (cands : List (String × CanonicalRecord)) (q : String × CanonicalRecord)
    (h : pick elig m cands = some q) :
    q ∈ cands ∧ elig q.2 = true ∧ m < q.2.score := by
  induction cands generalizing m with
  | nil => simp [pick] at h
  | cons p rest ih =>
    by_cases hc : elig p.2 = true ∧ m < p.2.score
    · rw [show pick elig m (p :: rest)
          = some ((pick elig p.2.score rest).getD p) by simp [pick, hc]] at h
      have hq : q = (pick elig p.2.score rest).getD p := (Option.some.inj h).symm
      cases hr : pick elig p.2.score rest with
      | none =>
        rw [hr] at hq
        simp at hq
        subst hq
        exact ⟨by simp, hc.1, hc.2⟩
      | some q' =>
        rw [hr] at hq
        simp at hq
        subst hq
        rcases ih p.2.score hr with ⟨hmem, he, hs⟩
        exact ⟨List.mem_cons_of_mem p hmem, he, lt_trans hc.2 hs⟩
    · rw [show pick elig m (p :: rest) = pick elig m rest by simp [pick, hc]] at h
      rcases ih m h with ⟨hmem, he, hs⟩
      exact ⟨List.mem_cons_of_mem p hmem, he, hs⟩

theorem pick_max (elig : CanonicalRecord → Bool) (m : ℚ)
    (cands : List (String × CanonicalRecord)) (q : String × CanonicalRecord)
    (h : pick elig m cands = some q) :
    ∀ p ∈ cands, elig p.2 = true → p.2.score ≤ q.2.score := by
  induction cands generalizing m with
  | nil => simp [pick] at h
  | cons p rest ih =>
    by_cases hc : elig p.2 = true ∧ m < p.2.score
    · rw [show pick elig m (p :: rest)
          = some ((pick elig p.2.score rest).getD p) by simp [pick, hc]] at h
      have hq : q = (pick elig p.2.score rest).getD p := (Option.some.inj h).symm
      cases hr : pick elig p.2.score rest with
      | none =>
        rw [hr] at hq
        simp at hq
        subst hq
        intro r hr' he
        rcases List.mem_cons.mp hr' with rfl | hr'
        · exact le_refl _
        · exact (pick_eq_none_iff elig q.2.score rest).mp hr r hr' he
      | some q' =>
        rw [hr] at hq
        simp at hq
        subst hq
        intro r hr' he
        rcases List.mem_cons.mp hr' with rfl | hr'
        · exact le_of_lt (pick_sound elig r.2.score rest q hr).2.2
        · exact ih p.2.score hr r hr' he
    · rw [show pick elig m (p :: rest) = pick elig m rest by simp [pick, hc]] at h
      intro r hr' he
      rcases List.mem_cons.mp hr' with rfl | hr'
      · have hle : r.2.score ≤ m := by
          by_contra hlt
          exact hc ⟨he, lt_of_not_le hlt⟩
        exact le_trans hle (le_of_lt (pick_sound elig m rest q h).2.2)
      · exact ih m h r hr' he

theorem pick_first (elig : CanonicalRecord → Bool) (m : ℚ)
    (cands : List (String × CanonicalRecord)) (q : String × CanonicalRecord)
    (h : pick elig m cands = some q) :
    ∃ l₁ l₂, cands = l₁ ++ q :: l₂ ∧
      ∀ p ∈ l₁, elig p.2 = true → (p.2.score ≤ m ∨ p.2.score < q.2.score) := by
  induction cands generalizing m with
  | nil => simp [pick] at h
  | cons p rest ih =>
    by_cases hc : elig p.2 = true ∧ m < p.2.score
    · rw [show pick elig m (p :: rest)
          = some ((pick elig p.2.score rest).getD p) by simp [pick, hc]] at h
      have hq : q = (pick elig p.2.score rest).getD p := (Option.some.inj h).symm
      cases hr : pick elig p.2.score rest with
      | none =>
        rw [hr] at hq
        simp at hq
        subst hq
        exact ⟨[], rest, rfl, by simp⟩
      | some q' =>
        rw [hr] at hq
        simp at hq
        subst hq
        rcases ih p.2.score hr with ⟨l₁, l₂, heq, hl₁⟩
        have hps : p.2.score < q.2.score := (pick_sound elig p.2.score rest q hr).2.2
        refine ⟨p :: l₁, l₂, by rw [heq]; rfl, ?_⟩
        intro r hr' he
        rcases List.mem_cons.mp hr' with rfl | hr'
        · exact Or.inr hps
        · rcases hl₁ r hr' he with hle | hlt
          · exact Or.inr (lt_of_le_of_lt hle hps)
          · exact Or.inr hlt
    · rw [show pick elig m (p :: rest) = pick elig m rest by simp [pick, hc]] at h
      rcases ih m h with ⟨l₁, l₂, heq, hl₁⟩
      refine ⟨p :: l₁, l₂, by rw [heq]; rfl, ?_⟩
      intro r hr' he
      rcases List.mem_cons.mp hr' with rfl | hr'
      · left
        by_contra hlt
        exact hc ⟨he, lt_of_not_le hlt⟩
      · exact hl₁ r hr' he

/-- Score of an optional selected candidate: `(selected.score or 0)`. -/
def optScore : Option (String × CanonicalRecord) → ℚ
  | some p => p.2.score
  | none => 0

/-- One entry of the temporal result dict (lines 838-870): the now record,
the optional selected before/after candidates, and the combined score. -/
structure TemporalEntry where
  now : String × CanonicalRecord
  before : Option (String × CanonicalRecord)
  after : Option (String × CanonicalRecord)
  score : ℚ
deriving DecidableEq

/-- The body of the correlation loop for one now record: select before and
after candidates by the scan, and combine `now.score` plus each selected
score when present. -/
def correlateEntry (interval : ℚ) (beforeSet afterSet : Dict)
    (nowId : String) (nowR : CanonicalRecord) : TemporalEntry :=
  ⟨(nowId, nowR),
   selectCandidate (beforeEligible interval nowR) beforeSet,
   selectCandidate (afterEligible interval nowR) afterSet,
   nowR.score + optScore (selectCandidate (beforeEligible interval nowR) beforeSet)
     + optScore (selectCandidate (afterEligible interval nowR) afterSet)⟩

/-- The correlation phase of `visual_temporal_search` (lines 811-872): one
entry per now record in now-set order, then `sorted(..., reverse=True)` by
combined score (stable). -/
def visualTemporalCorrelate (interval : ℚ) (nowSet beforeSet afterSet : Dict) :
    List (String × TemporalEntry) :=
  sortDescBy (fun p => p.2.score)
    (nowSet.map (fun p => (p.1, correlateEntry interval beforeSet afterSet p.1 p.2)))

/-- Characterization of the scan's selection, following the claim's words
amended by the positivity restriction the code imposes: when some candidate
is selected it is eligible, has positive score, no eligible candidate
scores higher, and every earlier eligible positive-score candidate scores
strictly lower (first-encountered wins ties); when none is selected, every
eligible candidate has score ≤ 0. -/
def SelectedSpec (elig : CanonicalRecord → Bool)
    (cands : List (String × CanonicalRecord)) :
    Option (String × CanonicalRecord) → Prop
  | none => ∀ p ∈ cands, elig p.2 = true → p.2.score ≤ 0
  | some q => q ∈ cands ∧ elig q.2 = true ∧ 0 < q.2.score
      ∧ (∀ p ∈ cands, elig p.2 = true → p.2.score ≤ q.2.score)
      ∧ ∃ l₁ l₂, cands = l₁ ++ q :: l₂ ∧
          ∀ p ∈ l₁, elig p.2 = true → 0 < p.2.score → p.2.score < q.2.score

theorem selectCandidate_spec (elig : CanonicalRecord → Bool)
    (cands : List (String × CanonicalRecord)) :
    SelectedSpec elig cands (selectCandidate elig cands) := by
  unfold selectCandidate
  rw [selectGo_eq_pick]
  cases h : pick elig 0 cands with
  | none =>
    show SelectedSpec elig cands none
    show ∀ p ∈ cands, elig p.2 = true → p.2.score ≤ 0
    exact (pick_eq_none_iff elig 0 cands).mp h
  | some q =>
    show SelectedSpec elig cands (some q)
    rcases pick_sound elig 0 cands q h with ⟨hmem, he, hpos⟩
    rcases pick_first elig 0 cands q h with ⟨l₁, l₂, heq, hl₁⟩
    refine ⟨hmem, he, hpos, pick_max elig 0 cands q h, l₁, l₂, heq, ?_⟩
    intro p hp hep hppos
    rcases hl₁ p hp hep with hle | hlt
    · exact absurd hppos (not_lt.mpr hle)
    · exact hlt

/-- The amended per-entry property of the temporal search output. -/
def TemporalEntrySpec (interval : ℚ) (beforeSet afterSet : Dict)
    (nowId : String) (e : TemporalEntry) : Prop :=
  e.now.1 = nowId
  ∧ e.score = e.now.2.score + optScore e.before + optScore e.after
  ∧ SelectedSpec (beforeEligible interval e.now.2) beforeSet e.before
  ∧ SelectedSpec (afterEligible interval e.now.2) afterSet e.after

/-- C1 (amended): for every temporal search, the output contains exactly
one entry per now record (it is a permutation of the per-now entries, in
particular every now record is represented), is sorted descending by
combined score, and each entry's combined score is the now score plus the
selected before/after scores (0 when none); the before candidate is the
first-encountered maximum-score record of the before-set that shares the
now record's videoId and satisfies
`0 ≤ now.time − candidate.time ≤ timeInterval` — **provided its score is
positive**: candidates with score ≤ 0 are never selected (when every
eligible candidate has score ≤ 0, no before match is made); symmetrically
for the after candidate with `0 ≤ candidate.time − now.time ≤ timeInterval`. -/
theorem visual_temporal_search_spec (interval : ℚ)
    (nowSet beforeSet afterSet : Dict) (nowId : String) (e : TemporalEntry)
    (h : (nowId, e) ∈ visualTemporalCorrelate interval nowSet beforeSet afterSet) :
    (visualTemporalCorrelate interval nowSet beforeSet afterSet).Pairwise
        (fun a b => b.2.score ≤ a.2.score)
  ∧ List.Perm (visualTemporalCorrelate interval nowSet beforeSet afterSet)
      (nowSet.map (fun p => (p.1, correlateEntry interval beforeSet afterSet p.1 p.2)))
  ∧ TemporalEntrySpec interval beforeSet afterSet nowId e := by
  refine ⟨sortDescBy_pairwise _ _, sortDescBy_perm _ _, ?_⟩
  have hmem : (nowId, e) ∈ nowSet.map
      (fun p => (p.1, correlateEntry interval beforeSet afterSet p.1 p.2)) :=
    (sortDescBy_perm _ _).mem_iff.mp h
  rcases List.mem_map.mp hmem with ⟨p, _, he⟩
  have h1 : p.1 = nowId := congrArg Prod.fst he
  have h2 : correlateEntry interval beforeSet afterSet p.1 p.2 = e :=
    congrArg Prod.snd he
  refine ⟨?_, ?_, ?_, ?_⟩
  · rw [← h2]
    exact h1
  · rw [← h2]
    rfl
  · rw [← h2]
    exact selectCandidate_spec _ _
  · rw [← h2]
    exact selectCandidate_spec _ _

/-- Concrete now record for the C1 instances: video V1, t = 30, score 0.4. -/
def cexNow : CanonicalRecord := ⟨2/5, "u", "kf", "V1", "30", 30⟩

/-- Concrete before record refuting the unamended C1: video V1, t = 20
(inside any window ≥ 10), score 0. -/
def cexBefore : CanonicalRecord := ⟨0, "u", "kf", "V1", "20", 20⟩

/-- The claim's stated selection rule, with no positivity restriction:
among the eligible candidates, the first one of maximum score
(first-encountered wins ties).  This definition follows the claim's
words, for comparison with `selectCandidate`. -/
def claimSelected (elig : CanonicalRecord → Bool)
    (cands : List (String × CanonicalRecord)) :
    Option (String × CanonicalRecord) :=
  match cands.filter (fun p => elig p.2) with
  | [] => none
  | q :: rest =>
    some (rest.foldl (fun b p => if b.2.score < p.2.score then p else b) q)

/-- C1 (counterexample to the claim as stated): with a single eligible
before candidate of score 0, the claim's rule selects that candidate (it
is the maximum-score eligible record), but the code selects none — the
running maximum starts at 0 and is compared strictly. -/
theorem visual_temporal_search_counterexample :
    claimSelected (beforeEligible 60 cexNow) [("p/V1/20", cexBefore)]
        = some ("p/V1/20", cexBefore)
  ∧ (visualTemporalCorrelate 60 [("p/V1/30", cexNow)]
        [("p/V1/20", cexBefore)] []).map (fun p => (p.1, p.2.before))
      = [("p/V1/30", none)] := by
  constructor
  · norm_num [claimSelected, beforeEligible, cexNow, cexBefore,
      List.filter, List.foldl]
  · norm_num [visualTemporalCorrelate, correlateEntry, selectCandidate,
      selectGo, beforeEligible, afterEligible, cexNow, cexBefore,
      sortDescBy, insertDescBy, optScore, List.map, List.foldr]

/-- Spec §8 temporal literal, used as the C1 witness input: before
candidates at t = 10 (score 0.5) and t = 25 (score 0.9). -/
def witBeforeSet : Dict :=
  [("p/V1/10", ⟨1/2, "u", "kf", "V1", "10", 10⟩),
   ("p/V1/25", ⟨9/10, "u", "kf", "V1", "25", 25⟩)]

theorem visual_temporal_search_spec_witness :
    ("p/V1/30", correlateEntry 60 witBeforeSet [] "p/V1/30" cexNow)
        ∈ visualTemporalCorrelate 60 [("p/V1/30", cexNow)] witBeforeSet []
  ∧ ((visualTemporalCorrelate 60 [("p/V1/30", cexNow)] witBeforeSet []).Pairwise
        (fun a b => b.2.score ≤ a.2.score)
    ∧ List.Perm (visualTemporalCorrelate 60 [("p/V1/30", cexNow)] witBeforeSet [])
        (([("p/V1/30", cexNow)] : Dict).map
          (fun p => (p.1, correlateEntry 60 witBeforeSet [] p.1 p.2)))
    ∧ TemporalEntrySpec 60 witBeforeSet [] "p/V1/30"
        (correlateEntry 60 witBeforeSet [] "p/V1/30" cexNow)) := by
  have hm : ("p/V1/30", correlateEntry 60 witBeforeSet [] "p/V1/30" cexNow)
      ∈ visualTemporalCorrelate 60 [("p/V1/30", cexNow)] witBeforeSet [] := by
    simp [visualTemporalCorrelate, sortDescBy, insertDescBy, List.map]
  exact ⟨hm, visual_temporal_search_spec 60 _ _ _ _ _ hm⟩

/-- C9: in temporal correlation, a before or after candidate whose score
is ≤ 0 is never selected — the running-maximum trackers start at 0 and
are compared strictly — so when every eligible candidate has score ≤ 0
the record gets no before/after match, and such records contribute
nothing to the combined score. -/
theorem temporal_nonpositive_never_selected (interval : ℚ)
    (beforeSet afterSet : Dict) (nowId : String) (nowR : CanonicalRecord) :
    (∀ q, (correlateEntry interval beforeSet afterSet nowId nowR).before = some q →
      0 < q.2.score)
  ∧ (∀ q, (correlateEntry interval beforeSet afterSet nowId nowR).after = some q →
      0 < q.2.score)
  ∧ ((∀ p ∈ beforeSet, beforeEligible interval nowR p.2 = true → p.2.score ≤ 0) →
      (correlateEntry interval beforeSet afterSet nowId nowR).before = none)
  ∧ ((∀ p ∈ afterSet, afterEligible interval nowR p.2 = true → p.2.score ≤ 0) →
      (correlateEntry interval beforeSet afterSet nowId nowR).after = none)
  ∧ (correlateEntry interval beforeSet afterSet nowId nowR).score
      = nowR.score
        + optScore (correlateEntry interval beforeSet afterSet nowId nowR).before
        + optScore (correlateEntry interval beforeSet afterSet nowId nowR).after := by
  have hb := selectCandidate_spec (beforeEligible interval nowR) beforeSet
  have ha := selectCandidate_spec (afterEligible interval nowR) afterSet
  refine ⟨?_, ?_, ?_, ?_, rfl⟩
  · intro q hq
    have he : selectCandidate (beforeEligible interval nowR) beforeSet = some q := hq
    rw [he] at hb
    exact hb.2.2.1
  · intro q hq
    have he : selectCandidate (afterEligible interval nowR) afterSet = some q := hq
    rw [he] at ha
    exact ha.2.2.1
  · intro hall
    show selectCandidate (beforeEligible interval nowR) beforeSet = none
    cases hs : selectCandidate (beforeEligible interval nowR) beforeSet with
    | none => rfl
    | some q =>
      rw [hs] at hb
      exact absurd (hall q hb.1 hb.2.1) (not_le.mpr hb.2.2.1)
  · intro hall
    show selectCandidate (afterEligible interval nowR) afterSet = none
    cases hs : selectCandidate (afterEligible interval nowR) afterSet with
    | none => rfl
    | some q =>
      rw [hs] at ha
      exact absurd (hall q ha.1 ha.2.1) (not_le.mpr ha.2.2.1)

/-- Concrete C9 instance: a sole eligible before candidate with score 0. -/
def c9Now : CanonicalRecord := ⟨2/5, "u", "kf", "V1", "30", 30⟩

/-- Concrete C9 before set with one zero-score candidate. -/
def c9BeforeSet : Dict := [("p/V1/20", ⟨0, "u", "kf", "V1", "20", 20⟩)]

theorem temporal_nonpositive_never_selected_witness :
    (∀ p ∈ c9BeforeSet, beforeEligible 60 c9Now p.2 = true → p.2.score ≤ 0)
  ∧ (correlateEntry 60 c9BeforeSet [] "p/V1/30" c9Now).before = none := by
  have hall : ∀ p ∈ c9BeforeSet, beforeEligible 60 c9Now p.2 = true →
      p.2.score ≤ 0 := by
    intro p hp _
    simp only [c9BeforeSet, List.mem_singleton] at hp
    rw [hp]
  exact ⟨hall,
    (temporal_nonpositive_never_selected 60 c9BeforeSet [] "p/V1/30" c9Now).2.2.1 hall⟩

/-! ## SearchOrchestrator session-state models
(`services/search_service.py` and `routers/chat.py`)

The Redis session cache is modelled as an association list with Python
dict semantics; the uniform `"search_"` key prefix of
`cache_result`/`get_cached_result` is injective and dropped here.  Fresh
state ids (`_generate_state_id`, 6 random bytes rendered as hex) are
passed to the models as explicit parameters; backend interactions
(Milvus/Elastic round trips, including the ensemble fan-out) are passed
as function parameters. -/

/-- The `KEYFRAMES_DIR` environment constant used as every image path. -/
def keyframesDir : String := "KEYFRAMES_DIR"

/-- What a cached state's `"results"` entry holds: a plain result dict or
a temporal mapping (written by `visual_temporal_search`). -/
inductive StoredResults where
  | plain (results : Dict)
  | temporal (results : List (String × TemporalEntry))
deriving DecidableEq

/-- A cached session state: the `"temporal"` flag and the `"results"`
mapping. -/
structure CachedState where
  temporal : Bool
  results : StoredResults
deriving DecidableEq

/-- The session cache. -/
abbrev Cache : Type := List (String × CachedState)

/-- Response shape of the orchestrator operations
(`models/base.py`, `GeneralResponse`). -/
structure GeneralResponse where
  status : String
  mode : Mode
  stateId : String
  results : List Cluster
  translatedTexts : List String
deriving DecidableEq

/-- Source `_create_temporal_clusters` (lines 279-320): one cluster per temporal
entry, named by the now id, images `[now] ++ [before]? ++ [after]?` all
carrying the entry's combined score, url taken from the now record. -/
def createTemporalClusters (d : List (String × TemporalEntry)) : List Cluster :=
  d.map (fun p =>
    ⟨Mode.VIDEO, p.1,
     [⟨p.2.now.1, keyframesDir, p.2.now.1, p.2.now.2.timeInSeconds, p.2.score⟩]
       ++ (match p.2.before with
           | some b => [⟨b.1, keyframesDir, b.1, b.2.timeInSeconds, p.2.score⟩]
           | none => [])
       ++ (match p.2.after with
           | some a => [⟨a.1, keyframesDir, a.1, a.2.timeInSeconds, p.2.score⟩]
           | none => []),
     p.2.now.2.url⟩)

/-- Source `process_results` on a plain (non-temporal) result dict: empty input
yields no clusters; MOMENT yields moment clusters, other modes video
clusters. -/
def processResults (d : Dict) (mode : Mode) : List Cluster :=
  if d.isEmpty then []
  else if mode = Mode.MOMENT then createMomentClusters d
  else createVideoClusters d mode

/-- Emptiness of a stored result mapping. -/
def storedIsEmpty : StoredResults → Bool
  | .plain d => d.isEmpty
  | .temporal d => d.isEmpty

/-- The call `process_results(cached["results"], mode, cached["temporal"])`.  The
source duck-types the dict: when the flag is set it indexes temporal
fields.  A mismatched flag/shape pair (a plain dict under a set flag,
reachable only by filtering a temporal state and restoring it) raises in
the source; it is modelled as the empty projection and is outside every
claim considered here. -/
def processState (c : CachedState) (mode : Mode) : List Cluster :=
  if storedIsEmpty c.results then []
  else if c.temporal then
    match c.results with
    | .temporal d => createTemporalClusters d
    | .plain _ => []
  else
    match c.results with
    | .plain d => processResults d mode
    | .temporal _ => []

/-- Source `_translate_text`: the backend's parsed `translated_text` on success;
any exception (unreachable endpoint, HTTP error, malformed payload) is
caught and the original text returned. -/
def translateText (text : String) : Except String String → String
  | .ok t => t
  | .error _ => text

/-- Model of `SearchService.text_search` (lines 212-262).  `fresh1` models the
`state_id` generated when the request carries none, `fresh2` the
`new_state_id` generated before caching; `backend` abstracts the
single-collection or ensemble Milvus round trip on the (possibly
translated) query text.  On a cache hit the source reads a
`translated_texts` key its own writer never stores (a latent KeyError on
that unclaimed path); the hit response here carries `[]`. -/
def textSearchModel (cache : Cache) (reqStateId : Option String)
    (fresh1 fresh2 : String) (translateMode : Bool)
    (translation : Except String String) (backend : String → Dict)
    (text : String) (mode : Mode) : Cache × GeneralResponse :=
  match dictGet cache (reqStateId.getD fresh1) with
  | some c =>
    (cache, ⟨"success", mode, reqStateId.getD fresh1, processState c mode, []⟩)
  | none =>
    (dictInsert cache fresh2
       ⟨false, .plain (backend (if translateMode then translateText text translation else text))⟩,
     ⟨"success", mode, fresh2,
      processResults (backend (if translateMode then translateText text translation else text)) mode,
      if translateMode then [if translateMode then translateText text translation else text] else []⟩)

/-- Model of `SearchService.change_clustering_mode` (lines 964-997): raises when
the handle is unknown; otherwise re-projects with the new mode and caches
the same state under a freshly generated id. -/
def changeClusteringModeModel (cache : Cache) (stateId : String)
    (newMode : Mode) (fresh : String) :
    Except String (Cache × String × List Cluster) :=
  match dictGet cache stateId with
  | none => .error "No cached results found"
  | some c => .ok (dictInsert cache fresh c, fresh, processState c newMode)

theorem dictGet_map_ne {α : Type} (d : List (String × α)) (k k' : String)
    (v : α) (hne : k ≠ k') :
    dictGet (d.map (fun p => if p.1 == k' then (k', v) else p)) k = dictGet d k := by
  have hkk : (k' == k) = false := beq_eq_false_iff_ne.mpr (Ne.symm hne)
  induction d with
  | nil => rfl
  | cons p rest ih =>
    simp only [List.map_cons]
    by_cases hp : p.1 = k'
    · have h1 : (if (p.1 == k') = true then (k', v) else p) = (k', v) := by
        simp [hp]
      rw [h1]
      unfold dictGet
      rw [List.find?_cons_of_neg _ (by simpa using hkk),
        List.find?_cons_of_neg _ (by rw [hp]; simpa using hkk)]
      exact ih

    · have h1 : (if (p.1 == k') = true then (k', v) else p) = p := by
        simp [hp]
      rw [h1]
      by_cases hk : p.1 = k
      · unfold dictGet
        rw [List.find?_cons_of_pos _ (by simpa using hk),
          List.find?_cons_of_pos _ (by simpa using hk)]
      · unfold dictGet
        rw [List.find?_cons_of_neg _ (by simpa using hk),
          List.find?_cons_of_neg _ (by simpa using hk)]
        exact ih

theorem dictGet_append_single_ne {α : Type} (d : List (String × α))
    (k k' : String) (v : α) (hne : k ≠ k') :
    dictGet (d ++ [(k', v)]) k = dictGet d k := by
  have hkk : (k' == k) = false := beq_eq_false_iff_ne.mpr (Ne.symm hne)
  induction d with
  | nil =>
    unfold dictGet
    rw [List.nil_append, List.find?_cons_of_neg _ (by simpa using hkk)]
  | cons p rest ih =>
    by_cases hk : p.1 = k
    · unfold dictGet
      rw [List.cons_append, List.find?_cons_of_pos _ (by simpa using hk),
        List.find?_cons_of_pos _ (by simpa using hk)]
    · unfold dictGet
      rw [List.cons_append, List.find?_cons_of_neg _ (by simpa using hk),
        List.find?_cons_of_neg _ (by simpa using hk)]
      exact ih

/-- Writing a binding for one key leaves every other key's lookup
unchanged. -/
theorem dictGet_dictInsert_ne {α : Type} (d : List (String × α))
    (k k' : String) (v : α) (hne : k ≠ k') :
    dictGet (dictInsert d k' v) k = dictGet d k := by
  unfold dictInsert
  by_cases hany : d.any (fun p => p.1 == k') = true
  · rw [if_pos hany]
    exact dictGet_map_ne d k k' v hne
  · rw [if_neg hany]
    exact dictGet_append_single_ne d k k' v hne

/-- C3: every session-cache write of the modelled orchestrator operations
(text search and change-clustering-mode, the cited operations) happens
under the freshly generated handle, never under a caller-supplied prior
handle: the lookup of every other handle — in particular any previously
issued one — is unchanged by the operation. -/
theorem session_state_handles_fresh :
    (∀ (cache : Cache) (reqStateId : Option String) (fresh1 fresh2 : String)
        (tm : Bool) (tr : Except String String) (backend : String → Dict)
        (text : String) (mode : Mode) (h : String), h ≠ fresh2 →
      dictGet (textSearchModel cache reqStateId fresh1 fresh2 tm tr backend text mode).1 h
        = dictGet cache h)
  ∧ (∀ (cache : Cache) (stateId : String) (newMode : Mode) (fresh : String)
        (out : Cache × String × List Cluster),
      changeClusteringModeModel cache stateId newMode fresh = .ok out →
      ∀ h : String, h ≠ fresh → dictGet out.1 h = dictGet cache h) := by
  constructor
  · intro cache reqStateId fresh1 fresh2 tm tr backend text mode h hne
    unfold textSearchModel
    cases hc : dictGet cache (reqStateId.getD fresh1) with
    | some c => rfl
    | none =>
      exact dictGet_dictInsert_ne cache h fresh2 _ hne
  · intro cache stateId newMode fresh out hok h hne
    unfold changeClusteringModeModel at hok
    cases hc : dictGet cache stateId with
    | none =>
      rw [hc] at hok
      exact absurd hok (by simp)
    | some c =>
      rw [hc] at hok
      have : out = (dictInsert cache fresh c, fresh, processState c newMode) :=
        ((Except.ok.inj hok)).symm
      rw [this]
      exact dictGet_dictInsert_ne cache h fresh c hne

theorem session_state_handles_fresh_witness :
    (("h0" : String) ≠ "f2"
      ∧ dictGet (textSearchModel [("h0", ⟨false, .plain []⟩)] none "f1" "f2"
            false (.ok "t") (fun _ => []) "t" Mode.MOMENT).1 "h0"
          = dictGet ([("h0", (⟨false, .plain []⟩ : CachedState))] : Cache) "h0")
  ∧ (changeClusteringModeModel [("h0", ⟨false, .plain []⟩)] "h0" Mode.MOMENT "f3"
        = .ok (dictInsert [("h0", ⟨false, .plain []⟩)] "f3" ⟨false, .plain []⟩,
            "f3", processState ⟨false, .plain []⟩ Mode.MOMENT)
      ∧ ("h0" : String) ≠ "f3"
      ∧ dictGet (dictInsert [("h0", (⟨false, .plain []⟩ : CachedState))] "f3"
            ⟨false, .plain []⟩) "h0"
          = dictGet ([("h0", (⟨false, .plain []⟩ : CachedState))] : Cache) "h0") := by
  refine ⟨⟨by decide, ?_⟩, rfl, by decide, ?_⟩
  · exact session_state_handles_fresh.1 _ none "f1" "f2" false (.ok "t")
      (fun _ => []) "t" Mode.MOMENT "h0" (by decide)
  · exact session_state_handles_fresh.2 [("h0", ⟨false, .plain []⟩)] "h0"
      Mode.MOMENT "f3"
      (dictInsert [("h0", ⟨false, .plain []⟩)] "f3" ⟨false, .plain []⟩,
        "f3", processState ⟨false, .plain []⟩ Mode.MOMENT)
      rfl "h0" (by decide)

/-! ## ApplyFilters (`services/search_service.py` lines 896-962) and the
chat router (`routers/chat.py`). -/

/-- Filter criteria (`models/base.py`, class `Filters`). -/
structure Filters where
  ocr : List String
  subtitle : List String
  description : List String
deriving DecidableEq

/-- The Elastic search payload built by `apply_filters`: a text key is
present only when the corresponding filter list is non-empty, `query_data`
carries the prior ids only when there are any. -/
structure ElasticPayload where
  ocrText : Option (List String)
  transcriptionText : Option (List String)
  descriptionText : Option (List String)
  size : ℕ
  fromOffset : ℕ
  queryIds : Option (List String)
deriving DecidableEq

/-- One Elastic hit as consumed by `apply_filters` (`id`, `url`,
`time_in_seconds`, `_score`). -/
structure ElasticResult where
  id : String
  url : String
  timeInSeconds : ℚ
  score : ℚ
deriving DecidableEq

/-- Payload construction of `apply_filters` (lines 905-931): when the
prior result dict is non-empty the query is restricted to its ids and
`size` set to their number, otherwise `size = top_k` and no id
restriction. -/
def buildFilterPayload (prior : Dict) (filters : Filters) (topK : ℕ) :
    ElasticPayload :=
  { ocrText := if filters.ocr.isEmpty then none else some filters.ocr,
    transcriptionText :=
      if filters.subtitle.isEmpty then none else some filters.subtitle,
    descriptionText :=
      if filters.description.isEmpty then none else some filters.description,
    size := if prior.length > 0 then (prior.map Prod.fst).length else topK,
    fromOffset := 0,
    queryIds :=
      if (if prior.length > 0 then prior.map Prod.fst else ([] : List String)).isEmpty
      then none
      else some (if prior.length > 0 then prior.map Prod.fst else []) }

/-- Conversion of one Elastic hit into a canonical record (lines 949-960):
video and frame ids from splitting the compound id, and the new score
`_score + current_result_dict.get(id, {}).get("score", 0)`. -/
def elasticToRecord (prior : Dict) (r : ElasticResult) : CanonicalRecord :=
  { score := r.score + (((dictGet prior r.id).map (fun c => c.score)).getD 0),
    url := r.url,
    path := keyframesDir,
    videoId := (r.id.splitOn "/").getD 1 "",
    frameId := (r.id.splitOn "/").getD 2 "",
    timeInSeconds := r.timeInSeconds }

/-- Source `SearchService.apply_filters`: build the payload, call the lexical
backend (any `APIRequestError` or unexpected exception yields the — still
empty — `result_dict`), then collect the hits keyed by id with the
prior-boosted score. -/
def applyFilters (prior : Dict) (filters : Filters) (topK : ℕ)
    (backend : ElasticPayload → Except String (List ElasticResult)) : Dict :=
  match backend (buildFilterPayload prior filters topK) with
  | .error _ => []
  | .ok rs => rs.foldl (fun acc r => dictInsert acc r.id (elasticToRecord prior r)) []

theorem mem_foldl_dictInsert {α β : Type} (f : β → String × α) (rs : List β)
    (acc : List (String × α)) (q : String × α)
    (h : q ∈ rs.foldl (fun a r => dictInsert a (f r).1 (f r).2) acc) :
    q ∈ acc ∨ ∃ r ∈ rs, (f r).1 = q.1 ∧ (f r).2 = q.2 := by
  induction rs generalizing acc with
  | nil => left; exact h
  | cons r rest ih =>
    rcases ih _ h with h' | h'
    · rcases mem_dictInsert h' with h'' | h''
      · right
        refine ⟨r, by simp, ?_, ?_⟩
        · exact (congrArg Prod.fst h'').symm
        · exact (congrArg Prod.snd h'').symm
      · left; exact h''
    · rcases h' with ⟨r', hr', he⟩
      right
      exact ⟨r', by simp [hr'], he⟩

/-- C5: the lexical query of `apply_filters` is restricted to exactly the
ids of the prior result set when one exists (with `size` set to their
number), else runs against the whole corpus with `size = top_k`; and every
record of the returned set scores its lexical match score plus the prior
set's score for that id (0 when absent). -/
theorem apply_filters_spec (prior : Dict) (filters : Filters) (topK : ℕ)
    (backend : ElasticPayload → Except String (List ElasticResult)) :
    ((buildFilterPayload prior filters topK).queryIds
        = if prior.isEmpty then none else some (prior.map Prod.fst))
  ∧ ((buildFilterPayload prior filters topK).size
        = if prior.isEmpty then topK else prior.length)
  ∧ (∀ rs, backend (buildFilterPayload prior filters topK) = .ok rs →
      ∀ id c, (id, c) ∈ applyFilters prior filters topK backend →
        ∃ r ∈ rs, r.id = id
          ∧ c.score = r.score + (((dictGet prior id).map (fun x => x.score)).getD 0)) := by
  refine ⟨?_, ?_, ?_⟩
  · cases prior with
    | nil => rfl
    | cons p rest => simp [buildFilterPayload]
  · cases prior with
    | nil => rfl
    | cons p rest => simp [buildFilterPayload]
  · intro rs hok id c hmem
    unfold applyFilters at hmem
    rw [hok] at hmem
    rcases mem_foldl_dictInsert (fun r => (r.id, elasticToRecord prior r)) rs []
        (id, c) hmem with h' | h'
    · simp at h'
    · rcases h' with ⟨r, hr, hid, hval⟩
      have hid' : r.id = id := hid
      have hval' : elasticToRecord prior r = c := hval
      refine ⟨r, hr, hid', ?_⟩
      rw [← hval', ← hid']
      rfl

theorem apply_filters_spec_witness :
    ((fun (_ : ElasticPayload) =>
        Except.ok (ε := String) [(⟨"p/V1/1", "u", 1, 1⟩ : ElasticResult)])
          (buildFilterPayload [] ⟨[], [], []⟩ 5)
        = Except.ok [(⟨"p/V1/1", "u", 1, 1⟩ : ElasticResult)])
  ∧ ("p/V1/1", elasticToRecord [] ⟨"p/V1/1", "u", 1, 1⟩)
      ∈ applyFilters [] ⟨[], [], []⟩ 5
          (fun _ => .ok [⟨"p/V1/1", "u", 1, 1⟩])
  ∧ ∃ r ∈ [(⟨"p/V1/1", "u", 1, 1⟩ : ElasticResult)], r.id = "p/V1/1"
      ∧ (elasticToRecord [] ⟨"p/V1/1", "u", 1, 1⟩).score
          = r.score + (((dictGet ([] : Dict) "p/V1/1").map (fun x => x.score)).getD 0) := by
  have hmem : ("p/V1/1", elasticToRecord [] ⟨"p/V1/1", "u", 1, 1⟩)
      ∈ applyFilters [] ⟨[], [], []⟩ 5
          (fun _ => .ok [⟨"p/V1/1", "u", 1, 1⟩]) :=
    List.Mem.head _
  exact ⟨rfl, hmem,
    (apply_filters_spec [] ⟨[], [], []⟩ 5 (fun _ => .ok [⟨"p/V1/1", "u", 1, 1⟩])).2.2
      [⟨"p/V1/1", "u", 1, 1⟩] rfl "p/V1/1" (elasticToRecord [] ⟨"p/V1/1", "u", 1, 1⟩) hmem⟩

/-- C7: a failing translation backend is fully recovered locally — the
translation step returns the original text unchanged, the search behaves
exactly as if translation had succeeded with the original text, and the
operation still reports success. -/
theorem translation_failure_recovered (text e : String) (cache : Cache)
    (reqStateId : Option String) (fresh1 fresh2 : String)
    (backend : String → Dict) (mode : Mode) :
    translateText text (.error e) = text
  ∧ textSearchModel cache reqStateId fresh1 fresh2 true (.error e) backend text mode
      = textSearchModel cache reqStateId fresh1 fresh2 true (.ok text) backend text mode
  ∧ (textSearchModel cache reqStateId fresh1 fresh2 true (.error e) backend text mode).2.status
      = "success" := by
  refine ⟨rfl, ?_, ?_⟩
  · unfold textSearchModel
    cases dictGet cache (reqStateId.getD fresh1) <;> rfl
  · unfold textSearchModel
    cases dictGet cache (reqStateId.getD fresh1) <;> rfl

/-- Model of `restore_chat` (`routers/chat.py` lines 60-88): re-project when the
handle is found, otherwise a success response with empty clusters and the
supplied handle. -/
def restoreChatModel (cache : Cache) (stateId : String) (mode : Mode) :
    GeneralResponse :=
  match dictGet cache stateId with
  | some c => ⟨"success", mode, stateId, processState c mode, []⟩
  | none => ⟨"success", mode, stateId, [], []⟩

/-- C8: restoring an unknown or expired state handle (cache lookup absent)
returns a success response with empty clusters and the supplied handle,
not an error. -/
theorem restore_unknown_handle_success (cache : Cache) (stateId : String)
    (mode : Mode) (h : dictGet cache stateId = none) :
    restoreChatModel cache stateId mode = ⟨"success", mode, stateId, [], []⟩ := by
  unfold restoreChatModel
  rw [h]

theorem restore_unknown_handle_success_witness :
    dictGet ([] : Cache) "x" = none
  ∧ restoreChatModel [] "x" Mode.MOMENT
      = ⟨"success", Mode.MOMENT, "x", [], []⟩ :=
  ⟨rfl, restore_unknown_handle_success [] "x" Mode.MOMENT rfl⟩

/-- The id/score view `filter_chat` passes to `apply_filters` as
`current_result_dict`: plain sets as-is; temporal sets expose their now-id
keys and combined scores (the source duck-types the dict — only `keys`
and `.get(id).get("score", 0)` are consulted by `apply_filters`). -/
def storedAsPriorDict : StoredResults → Dict
  | .plain d => d
  | .temporal d => d.map (fun p =>
      (p.1, ⟨p.2.score, p.2.now.2.url, keyframesDir, p.2.now.2.videoId,
        p.2.now.2.frameId, p.2.now.2.timeInSeconds⟩))

/-- Model of `filter_chat` (`routers/chat.py` lines 23-57): look up the prior
state (if a handle was supplied), apply the filters against it, project
clusters, and cache the new result set — with the prior temporal flag —
under a freshly generated handle. -/
def filterChatModel (cache : Cache) (reqStateId : Option String)
    (filters : Filters) (topK : ℕ) (mode : Mode) (fresh : String)
    (backend : ElasticPayload → Except String (List ElasticResult)) :
    Cache × GeneralResponse :=
  let cached := reqStateId.bind (fun s => dictGet cache s)
  let current := match cached with
    | some c => storedAsPriorDict c.results
    | none => []
  let rd := applyFilters current filters topK backend
  (dictInsert cache fresh
     ⟨((cached.map (fun c => c.temporal)).getD false), .plain rd⟩,
   ⟨"success", mode, fresh, processResults rd mode, []⟩)

/-- C10: when the lexical backend request fails, `apply_filters` returns
the empty mapping rather than raising, and the filter endpoint responds
with success, empty clusters and a fresh state handle bound to the empty
result set. -/
theorem filter_backend_failure_empty_success (cache : Cache)
    (reqStateId : Option String) (filters : Filters) (topK : ℕ) (mode : Mode)
    (fresh : String) (e : String) :
    (∀ prior, applyFilters prior filters topK (fun _ => .error e) = [])
  ∧ (filterChatModel cache reqStateId filters topK mode fresh (fun _ => .error e)).2
      = ⟨"success", mode, fresh, [], []⟩
  ∧ (filterChatModel cache reqStateId filters topK mode fresh (fun _ => .error e)).1
      = dictInsert cache fresh
          ⟨(((reqStateId.bind (fun s => dictGet cache s)).map
              (fun c => c.temporal)).getD false), .plain []⟩ :=
  ⟨fun _ => rfl, rfl, rfl⟩

end Buonghe
